import Mathlib

/-!
Shallow embedding of the core of `VCLI-0.2.20.py` (a Python 2.7 vSphere
command-line tool) together with proofs about its inventory resolution,
resource-delta, tag, snapshot and task-supervision logic.

Conventions of the embedding:
* Python strings are Lean `String`s; `str.lower()` is `lowerS` (ASCII
  lower-casing, which covers every name class the tool compares);
  the Python `in` operator on strings is `subStrB`.
* Python 2 integers are `Int`/`Nat`; Python floats are modelled as exact
  rationals (`Rat`), which agrees with float arithmetic on the integral
  values the tool manipulates; Python 2 `/` on integers is floor division.
* Functions that may return `None` return `Option _`; distinct
  early-return branches of a mutating routine are distinct constructors
  of an outcome type, so that "which message was printed / what was
  submitted" is visible to the theorems.
-/

namespace VCLI

/-- ASCII lower-casing of a string, the embedding of Python `str.lower()`
as applied by the tool (object names, tokens, tag and category names). -/
def lowerS (s : String) : String := ⟨s.data.map Char.toLower⟩

/-- The character list `n` is a leading block of `h` (helper for `subStrB`). -/
def chPre : List Char → List Char → Bool
  | [], _ => true
  | _ :: _, [] => false
  | a :: as, b :: bs => a == b && chPre as bs

/-- The character list `n` occurs contiguously inside `h`. -/
def chSub (n : List Char) : List Char → Bool
  | [] => n.isEmpty
  | b :: bs => chPre n (b :: bs) || chSub n bs

/-- Embedding of the Python `in` operator on strings:
`subStrB needle hay` is true iff `needle` occurs contiguously in `hay`. -/
def subStrB (needle hay : String) : Bool := chSub needle.data hay.data

/-! ## Inventory resolution (`_getObjects`, lines 2057-2172)

An inventory object is modelled by the two fields the name filter reads:
the object's `name` property and its raw managed-object identifier
`_moId`.  The remaining cached properties play no role in claims about
the filter. -/

structure InvObj where
  name : String
  moId : String
deriving DecidableEq, Repr

/-- The body of the per-object filter of `_getObjects` (lines 2144-2157):
`true` iff the object survives (is not `continue`d past).

* exact branch (`_match` truthy, lines 2145-2147): skip unless
  `name.lower()` is a token or the raw `_moId` is a token;
* substring branch (`_match` `None`/falsy and names present,
  lines 2150-2157): keep iff some token (lower-cased again) occurs in
  `name.lower()` or equals `_moId.lower()`. -/
def keepByName (ns? : Option (List String)) (mtch : Option Bool) (o : InvObj) : Bool :=
  match mtch, ns? with
  | some true, some ns => decide (lowerS o.name ∈ ns) || decide (o.moId ∈ ns)
  | some true, none => true
  | _, some ns => ns.any fun n => subStrB (lowerS n) (lowerS o.name) || (lowerS n == lowerS o.moId)
  | _, none => true

/-- Embedding of `_getObjects(otype, names, match)` restricted to its name
filter: the list of retrieved inventory objects that survive filtering,
in retrieval order.  (The source then keys the survivors by `name` in a
dict; under the uniqueness hypotheses of the claims the two views agree.)

`argsMatch` models `self._args.match` when that attribute exists
(line 2062): it overrides a non-`None` `mtch` argument.  An empty name
list is normalised to `None` (lines 2066-2069), and with no names the
match mode is cleared (lines 2070-2071), so no name filtering happens. -/
def getObjects (argsMatch : Option Bool) (inv : List InvObj)
    (names? : Option (List String)) (mtch : Option Bool) : List InvObj :=
  let m0 := match argsMatch, mtch with
    | some a, some _ => some a
    | _, _ => mtch
  let ns1 := match names? with
    | some ns => if ns.isEmpty then none else some ns
    | none => none
  let m1 := if ns1 = none then none else m0
  inv.filter (keepByName ns1 m1)

/-! ## Compute deltas (`_modifyCompute`, lines 3210-3270) -/

/-- The compute-relevant property snapshot of a VM:
`summary.config.numCpu`, `summary.config.memorySizeMB` and
`runtime.powerState == poweredOn`. -/
structure VmCompute where
  numCpu : Int
  memorySizeMB : Rat
  poweredOn : Bool
deriving DecidableEq, Repr

/-- The `action` dispatch of `_modifyCompute`; `remove` stands for the
aliases `delete`/`del`/`remove`/`rm` (line 3239). -/
inductive ComputeAction where
  | set
  | add
  | remove
deriving DecidableEq, Repr

/-- Each early-`return None` branch of `_modifyCompute` and the final
submission are distinct outcomes.
`submit a b` is the one reconfiguration request, with `numCPUs = a` and
`memoryMB = b` (lines 3262-3267). -/
inductive ComputeOutcome where
  | noArgs
  | rejectedCpu
  | rejectedMem
  | noChange
  | submit (numCPUs : Int) (memoryMB : Int)
deriving DecidableEq, Repr

/-- Python `int()` applied to a float (here: an exact rational):
truncation toward zero. -/
def pyInt (q : Rat) : Int := q.num.tdiv (q.den : Int)

/-- New CPU count per action (lines 3233-3241). -/
def cpuNewOf (action : ComputeAction) (cpuCurrent cpuDelta : Int) : Int :=
  match action with
  | .set => if cpuDelta > 0 then cpuDelta else cpuCurrent
  | .add => cpuCurrent + cpuDelta
  | .remove => if cpuCurrent > cpuDelta then cpuCurrent - cpuDelta else cpuDelta

/-- New memory size (MB) per action (lines 3233-3241). -/
def memNewOf (action : ComputeAction) (memCurrent memDelta : Rat) : Rat :=
  match action with
  | .set => if memDelta > 0 then memDelta else memCurrent
  | .add => memCurrent + memDelta
  | .remove => if memCurrent > memDelta then memCurrent - memDelta else memDelta

/-- Embedding of `_modifyCompute(vm, action, cpu, memory)`.
`cpu` is the CPU delta, `memory` the memory delta in GB (converted to MB
by `* 1024`, line 3231).  Power-on guard at lines 3246-3252, no-change
check at lines 3253-3255, submission at lines 3262-3267. -/
def modifyCompute (vm : VmCompute) (action : ComputeAction)
    (cpu : Option Int) (memory : Option Rat) : ComputeOutcome :=
  if cpu = none ∧ memory = none then .noArgs
  else
    let cpuCurrent := vm.numCpu
    let memCurrent := vm.memorySizeMB
    let cpuDelta := cpu.getD 0
    let memDelta := (memory.getD 0) * 1024
    let cpuNew := cpuNewOf action cpuCurrent cpuDelta
    let memNew := memNewOf action memCurrent memDelta
    if vm.poweredOn = true ∧ cpuNew < cpuCurrent then .rejectedCpu
    else if vm.poweredOn = true ∧ memNew < memCurrent then .rejectedMem
    else if cpuNew = cpuCurrent ∧ memNew = memCurrent then .noChange
    else .submit cpuNew (pyInt memNew)

/-! ## Disk grow (`_addVmStorage`, lines 3442-3488, and
`_getVmDiskObject`, lines 2199-2226) -/

/-- The fields of a `vim.vm.device.VirtualDisk` read by the grow path. -/
structure VirtualDisk where
  label : String
  capacityInKB : Nat
  thinProvisioned : Bool
  key : Int
deriving DecidableEq, Repr

/-- Embedding of `_getVmDiskObject(vm, diskId)` over the VM's virtual-disk
devices in device-list order (non-disk devices are skipped by the
`isinstance` test, line 2208).  With no `diskId` the running variable is
overwritten on every disk, so the last disk wins (lines 2215-2217); with
a `diskId` the first device labelled `Hard disk <diskId>` wins
(lines 2222-2224). -/
def getVmDiskObject (disks : List VirtualDisk) (diskId : Option Nat) : Option VirtualDisk :=
  match diskId with
  | none => disks.getLast?
  | some i => disks.find? fun d => d.label == "Hard disk " ++ toString i

/-- Each early-`return None` branch of `_addVmStorage` and the one
submission are distinct outcomes; `submit k c` reconfigures the disk
with device key `k` to `capacityInKB = c` (lines 3468-3477). -/
inductive StorageOutcome where
  | noChange
  | rejectedShrink
  | diskNotFound
  | rejectedThick
  | submit (key : Int) (newCapacityInKB : Nat)
deriving DecidableEq, Repr

/-- Embedding of `_addVmStorage(vm)`.  `size` is the requested delta in
GB.  Zero/negative deltas are rejected (lines 3450-3455); growing a
non-thin disk without the `thick` override is rejected (lines 3462-3464);
the new size in GB is `capacityInKB / 1024 / 1024 + abs(size)` with
Python 2 floor division on integers (line 3466), and the submitted
capacity is that times `1024 * 1024` KB (line 3477). -/
def addVmStorage (disks : List VirtualDisk) (size : Int) (diskId : Option Nat)
    (thick : Bool) : StorageOutcome :=
  if size = 0 then .noChange
  else if size < 0 then .rejectedShrink
  else
    match getVmDiskObject disks diskId with
    | none => .diskNotFound
    | some d =>
      if d.thinProvisioned = false ∧ thick = false then .rejectedThick
      else
        let newSizeGB : Nat := d.capacityInKB / 1024 / 1024 + size.natAbs
        .submit d.key (newSizeGB * 1024 * 1024)

/-! ## Tag association (`_addVmTag`, lines 3493-3570, and
`_removeVmTag`, lines 4079-4132) -/

/-- A tag of the tag service together with its (looked-up) category's
name and cardinality (`_tagService.get` / `_catService.get`). -/
structure InvTag where
  name : String
  categoryName : String
  cardinality : String
deriving DecidableEq, Repr

/-- One association operation issued against the tag-association
service, in issue order. -/
inductive TagOp where
  | detach (tagName : String)
  | attach (tagName : String)
deriving DecidableEq, Repr

/-- Shared match filter of both tag routines: the tag's lower-cased name
must be one of the tokens (lines 3513, 4106), and, when a category hint
is supplied, the lower-cased hint must occur in the lower-cased category
name (lines 3521, 4110). -/
def matchesTag (tokens : List String) (hint : Option String) (t : InvTag) : Bool :=
  decide (lowerS t.name ∈ tokens) &&
    match hint with
    | some c => subStrB (lowerS c) (lowerS t.categoryName)
    | none => true

/-- The dict key used to detect ambiguity: `'{cat}.{tag}'` with the raw
hint when a hint is supplied, else the bare tag name
(lines 3527, 4113). -/
def tagKey (hint : Option String) (t : InvTag) : String :=
  match hint with
  | some c => c ++ "." ++ t.name
  | none => t.name

/-- Tag resolution of `_addVmTag` (lines 3506-3532): walk the tag
service's tag list, keep the matches keyed by `tagKey`; on a duplicate
key the whole routine does `return 0` (line 3530), modelled as `none`.
The dict is modelled as an insertion-ordered association list. -/
def resolveAddTags (tokens : List String) (hint : Option String) :
    List InvTag → List (String × InvTag) → Option (List (String × InvTag))
  | [], acc => some acc
  | t :: ts, acc =>
    if matchesTag tokens hint t then
      if (acc.map Prod.fst).contains (tagKey hint t) then none
      else resolveAddTags tokens hint ts (acc ++ [(tagKey hint t, t)])
    else resolveAddTags tokens hint ts acc

/-- The conflict test of the Highlander rule (line 3563): an attached tag
whose category name and cardinality equal the new tag's but whose name
differs. -/
def attachConflict (newTag t0 : InvTag) : Bool :=
  t0.categoryName == newTag.categoryName && t0.cardinality == newTag.cardinality
    && t0.name != newTag.name

/-- The association operations issued when attaching `newTag` to an
object whose currently attached tags are `attached` (lines 3552-3570):
for a SINGLE-cardinality category the first conflicting attached tag is
detached (then `break`), and the new tag is always attached last. -/
def attachOps (attached : List InvTag) (newTag : InvTag) : List TagOp :=
  if lowerS newTag.cardinality == "single" then
    match attached.find? (attachConflict newTag) with
    | some t0 => [TagOp.detach t0.name, TagOp.attach newTag.name]
    | none => [TagOp.attach newTag.name]
  else [TagOp.attach newTag.name]

/-- Full mutation trace of `_addVmTag`: which `(vm-name, operation)`
pairs are issued.  Ambiguous resolution (line 3530), no resolved tag
(lines 3534-3536) or no resolved VM (lines 3539-3541) all `return 0`
before any association call; `vms` pairs each resolved VM's name with
its currently attached tags. -/
def addVmTagTrace (allTags : List InvTag) (tokens : List String) (hint : Option String)
    (vms : List (String × List InvTag)) : List (String × TagOp) :=
  match resolveAddTags tokens hint allTags [] with
  | none => []
  | some resolved =>
    if resolved.isEmpty then []
    else if vms.isEmpty then []
    else vms.flatMap fun vm =>
      resolved.flatMap fun kt => (attachOps vm.2 kt.2).map fun op => (vm.1, op)

/-- `_objTags[_key] = None` (line 4116): blank out the value stored under
key `k`. -/
def setKeyNone (acc : List (String × Option InvTag)) (k : String) :
    List (String × Option InvTag) :=
  acc.map fun kv => if kv.1 == k then (kv.1, none) else kv

/-- Per-VM tag resolution of `_removeVmTag` (lines 4104-4118): the
matches among the VM's attached tags, keyed by `tagKey`; a duplicate key
is demoted to `none` ("Skipping ambiguous tag", lines 4114-4117) and the
walk continues. -/
def resolveDetachTags (tokens : List String) (hint : Option String) :
    List InvTag → List (String × Option InvTag) → List (String × Option InvTag)
  | [], acc => acc
  | t :: ts, acc =>
    if matchesTag tokens hint t then
      if (acc.map Prod.fst).contains (tagKey hint t) then
        resolveDetachTags tokens hint ts (setKeyNone acc (tagKey hint t))
      else resolveDetachTags tokens hint ts (acc ++ [(tagKey hint t, some t)])
    else resolveDetachTags tokens hint ts acc

/-- The detach operations `_removeVmTag` issues for one VM
(lines 4126-4132): one per resolved key still carrying a tag; keys
demoted to `none` are skipped (lines 4128-4129). -/
def detachOpsFor (tokens : List String) (hint : Option String)
    (attached : List InvTag) : List TagOp :=
  (resolveDetachTags tokens hint attached []).filterMap fun kv =>
    kv.2.map fun t => TagOp.detach t.name

/-- Full mutation trace of `_removeVmTag` over the resolved VMs
(lines 4092-4132); each VM is processed independently. -/
def removeVmTagTrace (tokens : List String) (hint : Option String)
    (vms : List (String × List InvTag)) : List (String × TagOp) :=
  vms.flatMap fun vm => (detachOpsFor tokens hint vm.2).map fun op => (vm.1, op)

/-- Analysis helper: how many tags of `ts` match the tokens/hint filter
and resolve to the dict key `k`.  A key is ambiguous exactly when this
count is at least 2. -/
def matchKeyCount (tokens : List String) (hint : Option String) (k : String)
    (ts : List InvTag) : Nat :=
  (ts.filter fun t => matchesTag tokens hint t && (tagKey hint t == k)).length

/-! ## Task supervision (`_waitOnTask`, lines 2348-2383) -/

/-- `vim.TaskInfo.State`. -/
inductive TaskState where
  | queued
  | running
  | success
  | error
deriving DecidableEq, Repr

/-- The loop-exit test of line 2364: `state in [success, error]`. -/
def isTerminalState : TaskState → Bool
  | .success => true
  | .error => true
  | _ => false

/-- The effective wait budget (line 2353): `self._args.wait` when the
invoked sub-command's parser defines a `wait` attribute, else the
`wait` keyword argument, whose Python default is 42 (line 2348). -/
def effectiveWait (argsWait : Option Nat) (wait : Nat := 42) : Nat :=
  match argsWait with
  | some w => w
  | none => wait

/-- The polling loop of lines 2362-2366 plus the final state read of
line 2371, over an observation function `st` giving the task state seen
by the poll issued `i` seconds after entry (each `time.sleep(1)` advances
the clock by one).  Returns the final state together with the elapsed
seconds at the moment the routine returns: polls happen at elapsed
`i, i+1, ...`; a terminal poll exits immediately; with the fuel exhausted
the state is re-read after the last sleep. -/
def pollFrom (st : Nat → TaskState) (i : Nat) : Nat → TaskState × Nat
  | 0 => (st i, i)
  | k + 1 => if isTerminalState (st i) then (st i, i) else pollFrom st (i + 1) k

/-- Embedding of `_waitOnTask(task, title, wait=42)` for a non-`None`
task: poll once per second until a terminal state or until the budget
`effectiveWait argsWait wait` is exhausted. -/
def waitOnTask (argsWait : Option Nat) (st : Nat → TaskState)
    (wait : Nat := 42) : TaskState × Nat :=
  pollFrom st 0 (effectiveWait argsWait wait)

/-- The wait budget the clone path passes to `_waitOnTask`
(lines 3771-3773); the `clone` sub-parser defines no `wait` attribute
(parents `_optClone`/`_optCompute`, lines 1184-1195, 1515-1516), so this
caller value is the effective budget. -/
def cloneVmWait : Nat := 1200

/-- `_waitOnTask` as invoked from `_cloneVm` (line 3773). -/
def cloneWaitOnTask (argsWait : Option Nat) (st : Nat → TaskState) : TaskState × Nat :=
  waitOnTask argsWait st cloneVmWait

/-! ## Snapshot chain (`_snapshot` id search, lines 4278-4290, and
`_listVmSnapshot`, lines 3122-3137) -/

/-- A node of `rootSnapshotList` / `childSnapshotList`: its stable id and
its children.  Only the first child is ever visited by the tool. -/
inductive SnapTree where
  | node (id : Int) (childSnapshotList : List SnapTree)

/-- The id of a snapshot node. -/
def SnapTree.nodeId : SnapTree → Int
  | .node j _ => j

/-- The id search of `_snapshot` (lines 4280-4290): start at the root,
stop at the first node whose id matches, follow `childSnapshotList[0]`
otherwise, and give up (`None`, line 4288) at a childless node. -/
def findSnapshotById : SnapTree → Int → Option SnapTree
  | .node j cs, i =>
    if j = i then some (.node j cs)
    else
      match cs with
      | [] => none
      | c :: _ => findSnapshotById c i

/-- The front-to-back chain the tool walks: the root followed by the
chain of first children (the walk of lines 3126-3135 and 4280-4290). -/
def snapChain : SnapTree → List SnapTree
  | .node j [] => [.node j []]
  | .node j (c :: cs) => .node j (c :: cs) :: snapChain c

/-- Embedding of `_listVmSnapshot(vm)`: `None` when the VM has no root
snapshot (lines 3122-3123), else the number of rows printed while
walking the chain (lines 3126-3137); the rows appear in chain order. -/
def listVmSnapshot (root? : Option SnapTree) : Option Nat :=
  match root? with
  | none => none
  | some root => some (snapChain root).length

/-! ## Disk add (`_addVmDisk`, lines 3314-3379) -/

/-- The hardware devices distinguished by `_addVmDisk`'s loop: virtual
disks (with or without a `fileName` backing attribute), SCSI controllers
(bus number and device key), and everything else. -/
inductive VmDevice where
  | virtualDisk (unitNumber : Int) (hasFileName : Bool)
  | scsiController (busNumber : Int) (key : Int)
  | other
deriving DecidableEq, Repr

/-- Outcomes of `_addVmDisk`: the in-loop `return None` on bus
saturation (lines 3340-3342), the post-loop `return None` when no
controller matches (lines 3346-3348), the uncaught Python
`UnboundLocalError` raised at line 3363 when `_unitNumber` was never
assigned, and the one submitted create-and-attach request. -/
inductive AddDiskResult where
  | busSaturated
  | noController
  | unboundLocalError
  | submitted (unitNumber : Int) (controllerKey : Int)
deriving DecidableEq, Repr

/-- The device loop of lines 3329-3344, threading the (possibly still
unassigned) `_unitNumber` and the matched controller key; `none` models
the early `return None` on bus saturation. -/
def addVmDiskLoop (bus : Int) :
    List VmDevice → Option Int → Option Int → Option (Option Int × Option Int)
  | [], unit?, ctrl? => some (unit?, ctrl?)
  | d :: ds, unit?, ctrl? =>
    match d with
    | .virtualDisk u hasF =>
      if hasF then
        let u1 := u + 1
        if u1 = 7 then addVmDiskLoop bus ds (some 8) ctrl?
        else if 16 ≤ u1 then none
        else addVmDiskLoop bus ds (some u1) ctrl?
      else addVmDiskLoop bus ds unit? ctrl?
    | .scsiController b k =>
      if b = bus then addVmDiskLoop bus ds unit? (some k)
      else addVmDiskLoop bus ds unit? ctrl?
    | .other => addVmDiskLoop bus ds unit? ctrl?

/-- Embedding of `_addVmDisk(vm)` up to the submission of the
create-and-attach request: run the device loop, fail without a
controller, and then read `_unitNumber` (line 3363) — an uncaught
`UnboundLocalError` if the loop never assigned it. -/
def addVmDisk (devices : List VmDevice) (bus : Int) : AddDiskResult :=
  match addVmDiskLoop bus devices none none with
  | none => .busSaturated
  | some (_, none) => .noController
  | some (none, some _) => .unboundLocalError
  | some (some u, some k) => .submitted u k

/-! ## Helper lemmas -/

theorem getObjects_eq_filter (inv : List InvObj) (ts : List String) (m : Option Bool)
    (hne : ts ≠ []) :
    getObjects none inv (some ts) m = inv.filter (keepByName (some ts) m) := by
  match ts with
  | [] => exact absurd rfl hne
  | t :: ts' => rfl

theorem keep_exact_iff (ts : List String) (o : InvObj) :
    keepByName (some ts) (some true) o = true ↔ lowerS o.name ∈ ts ∨ o.moId ∈ ts := by
  simp [keepByName]

theorem keep_sub_iff (ts : List String) (o : InvObj) :
    keepByName (some ts) (some false) o = true ↔
      ∃ n ∈ ts, subStrB (lowerS n) (lowerS o.name) = true ∨ lowerS n = lowerS o.moId := by
  simp [keepByName, List.any_eq_true]

theorem filter_eq_single {α : Type _} {p : α → Bool} {l : List α} {a : α}
    (hnd : l.Nodup) (ha : a ∈ l) (hpa : p a = true)
    (hother : ∀ b ∈ l, b ≠ a → p b = false) : l.filter p = [a] := by
  induction l with
  | nil => cases ha
  | cons x xs ih =>
    have hx : x ∉ xs := (List.nodup_cons.mp hnd).1
    have hnd' : xs.Nodup := (List.nodup_cons.mp hnd).2
    rcases List.mem_cons.mp ha with hax | hax
    · subst hax
      have hrest : xs.filter p = [] := by
        apply List.filter_eq_nil_iff.mpr
        intro b hb
        have hba : b ≠ a := fun h => hx (h ▸ hb)
        simp [hother b (List.mem_cons_of_mem _ hb) hba]
      simp [List.filter_cons, hpa, hrest]
    · have hxa : x ≠ a := fun h => hx (h ▸ hax)
      have hpx : p x = false := hother x (List.mem_cons_self _ _) hxa
      simp [List.filter_cons, hpx]
      exact ih hnd' hax fun b hb hba => hother b (List.mem_cons_of_mem _ hb) hba

theorem find?_eq_of_unique {α : Type _} {p : α → Bool} {l : List α} {a : α}
    (ha : a ∈ l) (hpa : p a = true) (huniq : ∀ b ∈ l, p b = true → b = a) :
    l.find? p = some a := by
  cases hfind : l.find? p with
  | none => exact absurd hpa (by simpa using (List.find?_eq_none.mp hfind) a ha)
  | some b =>
    have hpb := List.find?_some hfind
    have hbl := List.mem_of_find?_eq_some hfind
    rw [huniq b hbl hpb]

/-! ## Claims -/

/-- Claim C1: for every inventory object and every non-empty lower-cased
token list, the resolver keeps the object under exact match only if (in
fact: exactly if) its name, case-insensitively, or its raw
managed-object identifier equals one of the tokens; under substring
match exactly if some token occurs case-insensitively in the name or
case-insensitively equals the identifier; and, with exact match,
resolving by an object's exact name and by its exact identifier yield
the same singleton result `[o]` (given a well-formed inventory: no
duplicate objects, case-insensitively distinct names, identifiers
distinct from each other and from names, the identifier surviving
lower-casing). -/
theorem getObjects_name_filter_correct
    (inv : List InvObj) (o : InvObj) (ho : o ∈ inv) (ts : List String)
    (hne : ts ≠ []) (hlc : ∀ t ∈ ts, lowerS t = t) :
    (o ∈ getObjects none inv (some ts) (some true) ↔
      lowerS o.name ∈ ts ∨ o.moId ∈ ts)
    ∧ (o ∈ getObjects none inv (some ts) (some false) ↔
      ∃ t ∈ ts, subStrB t (lowerS o.name) = true ∨ t = lowerS o.moId)
    ∧ (inv.Nodup → lowerS o.moId = o.moId →
      (∀ o' ∈ inv, o' ≠ o →
        lowerS o'.name ≠ lowerS o.name ∧ o'.moId ≠ lowerS o.name ∧
        lowerS o'.name ≠ o.moId ∧ o'.moId ≠ o.moId) →
      getObjects none inv (some [lowerS o.name]) (some true) = [o] ∧
      getObjects none inv (some [lowerS o.moId]) (some true) = [o]) := by
  refine ⟨?_, ?_, ?_⟩
  · rw [getObjects_eq_filter inv ts (some true) hne]
    rw [List.mem_filter]
    constructor
    · intro h
      exact (keep_exact_iff ts o).mp h.2
    · intro h
      exact ⟨ho, (keep_exact_iff ts o).mpr h⟩
  · rw [getObjects_eq_filter inv ts (some false) hne]
    rw [List.mem_filter]
    constructor
    · intro h
      obtain ⟨n, hn, hcase⟩ := (keep_sub_iff ts o).mp h.2
      exact ⟨n, hn, by rwa [hlc n hn] at hcase⟩
    · intro h
      obtain ⟨n, hn, hcase⟩ := h
      exact ⟨ho, (keep_sub_iff ts o).mpr ⟨n, hn, by rwa [hlc n hn]⟩⟩
  · intro hnd hmo huniq
    constructor
    · rw [getObjects_eq_filter inv [lowerS o.name] (some true) (by simp)]
      apply filter_eq_single hnd ho
      · exact (keep_exact_iff _ o).mpr (Or.inl (by simp))
      · intro b hb hba
        have hprops := huniq b hb hba
        rw [Bool.eq_false_iff]
        intro hkeep
        rcases (keep_exact_iff _ b).mp hkeep with h | h
        · exact hprops.1 (by simpa using h)
        · exact hprops.2.1 (by simpa using h)
    · rw [hmo, getObjects_eq_filter inv [o.moId] (some true) (by simp)]
      apply filter_eq_single hnd ho
      · exact (keep_exact_iff _ o).mpr (Or.inr (by simp))
      · intro b hb hba
        have hprops := huniq b hb hba
        rw [Bool.eq_false_iff]
        intro hkeep
        rcases (keep_exact_iff _ b).mp hkeep with h | h
        · exact hprops.2.2.1 (by simpa using h)
        · exact hprops.2.2.2 (by simpa using h)

/-- Witness for C1 on a concrete two-object inventory. -/
theorem getObjects_name_filter_correct_witness :
    ((⟨"Web01", "vm-42"⟩ : InvObj) ∈
      getObjects none [⟨"Web01", "vm-42"⟩, ⟨"db01", "vm-7"⟩] (some ["web01"]) (some true))
    ∧ getObjects none [⟨"Web01", "vm-42"⟩, ⟨"db01", "vm-7"⟩]
        (some [lowerS "Web01"]) (some true) = [⟨"Web01", "vm-42"⟩]
    ∧ getObjects none [⟨"Web01", "vm-42"⟩, ⟨"db01", "vm-7"⟩]
        (some [lowerS "vm-42"]) (some true) = [⟨"Web01", "vm-42"⟩] := by
  have h := getObjects_name_filter_correct
    [⟨"Web01", "vm-42"⟩, ⟨"db01", "vm-7"⟩] ⟨"Web01", "vm-42"⟩ (by decide)
    ["web01"] (by decide) (by decide)
  have hc := h.2.2 (by decide) (by decide) (by decide)
  exact ⟨h.1.mpr (Or.inl (by decide)), hc.1, hc.2⟩

/-- Counterexample to C7 as stated: over the one-object inventory
`[{name := "web", moId := "vm-1"}]`, the empty token list is a subset of
`["zzz"]`, yet substring resolution with the empty list keeps the object
(no-name resolution keeps everything, lines 2066-2071) while resolution
with `["zzz"]` drops it, so the larger token set does not yield a
superset. -/
theorem getObjects_monotone_counterexample :
    (∀ t ∈ ([] : List String), t ∈ ["zzz"])
    ∧ ¬ (∀ x ∈ getObjects none [⟨"web", "vm-1"⟩] (some ([] : List String)) (some false),
        x ∈ getObjects none [⟨"web", "vm-1"⟩] (some ["zzz"]) (some false)) := by
  constructor
  · intro t ht
    cases ht
  · intro h
    have := h ⟨"web", "vm-1"⟩ (by decide)
    exact absurd this (by decide)

/-- Claim C7 amended: for a fixed inventory and a pair of *non-empty*
token lists `S ⊆ T`, substring resolution with `T` yields a superset of
the result with `S`. -/
theorem getObjects_monotone_of_ne_nil (inv : List InvObj) (S T : List String)
    (hS : S ≠ []) (hsub : ∀ t ∈ S, t ∈ T) :
    ∀ x ∈ getObjects none inv (some S) (some false),
      x ∈ getObjects none inv (some T) (some false) := by
  have hT : T ≠ [] := by
    obtain ⟨t, ht⟩ := List.exists_mem_of_ne_nil S hS
    exact List.ne_nil_of_mem (hsub t ht)
  intro x hx
  rw [getObjects_eq_filter inv S (some false) hS, List.mem_filter] at hx
  rw [getObjects_eq_filter inv T (some false) hT, List.mem_filter]
  refine ⟨hx.1, ?_⟩
  obtain ⟨n, hn, hcase⟩ := (keep_sub_iff S x).mp hx.2
  exact (keep_sub_iff T x).mpr ⟨n, hsub n hn, hcase⟩

/-- Witness for C7 (amended) on a concrete inventory. -/
theorem getObjects_monotone_of_ne_nil_witness :
    (⟨"web", "vm-1"⟩ : InvObj) ∈
      getObjects none [⟨"web", "vm-1"⟩] (some ["we", "x"]) (some false) :=
  getObjects_monotone_of_ne_nil [⟨"web", "vm-1"⟩] ["we"] ["we", "x"]
    (by decide) (by decide) ⟨"web", "vm-1"⟩ (by decide)

/-- Claim C2: for every VM and compute change, if the VM is powered on
and the computed new value of a dimension is lower than the current
value, the operation is rejected with a message and no reconfiguration
is submitted; if neither dimension changes, no request is submitted (the
code prints "No CPU or Memory change requested." — this covers the
powered-on `remove cpuDelta=1` example, whose computed new CPU equals
the current one); otherwise one reconfiguration with the new values is
submitted. -/
theorem modifyCompute_correct (vm : VmCompute) (action : ComputeAction)
    (cpu : Option Int) (memory : Option Rat) (hargs : ¬(cpu = none ∧ memory = none))
    (cpuNew : Int) (memNew : Rat)
    (hc : cpuNew = cpuNewOf action vm.numCpu (cpu.getD 0))
    (hm : memNew = memNewOf action vm.memorySizeMB ((memory.getD 0) * 1024)) :
    (vm.poweredOn = true → cpuNew < vm.numCpu ∨ memNew < vm.memorySizeMB →
      (modifyCompute vm action cpu memory = .rejectedCpu ∨
        modifyCompute vm action cpu memory = .rejectedMem) ∧
      ∀ a b, modifyCompute vm action cpu memory ≠ .submit a b)
    ∧ (cpuNew = vm.numCpu → memNew = vm.memorySizeMB →
        modifyCompute vm action cpu memory = .noChange)
    ∧ (¬(vm.poweredOn = true ∧ (cpuNew < vm.numCpu ∨ memNew < vm.memorySizeMB)) →
        ¬(cpuNew = vm.numCpu ∧ memNew = vm.memorySizeMB) →
        modifyCompute vm action cpu memory = .submit cpuNew (pyInt memNew)) := by
  subst hc hm
  have hbody : modifyCompute vm action cpu memory =
      (if vm.poweredOn = true ∧ cpuNewOf action vm.numCpu (cpu.getD 0) < vm.numCpu then
        ComputeOutcome.rejectedCpu
      else if vm.poweredOn = true ∧
          memNewOf action vm.memorySizeMB ((memory.getD 0) * 1024) < vm.memorySizeMB then
        ComputeOutcome.rejectedMem
      else if cpuNewOf action vm.numCpu (cpu.getD 0) = vm.numCpu ∧
          memNewOf action vm.memorySizeMB ((memory.getD 0) * 1024) = vm.memorySizeMB then
        ComputeOutcome.noChange
      else
        ComputeOutcome.submit (cpuNewOf action vm.numCpu (cpu.getD 0))
          (pyInt (memNewOf action vm.memorySizeMB ((memory.getD 0) * 1024)))) := by
    simp only [modifyCompute]
    rw [if_neg hargs]
  refine ⟨?_, ?_, ?_⟩
  · intro hpow hlt
    rw [hbody]
    split_ifs with h1 h2
    · exact ⟨Or.inl rfl, by intro a b h; cases h⟩
    · exact ⟨Or.inr rfl, by intro a b h; cases h⟩
    all_goals
      rcases hlt with hl | hl
      · exact absurd ⟨hpow, hl⟩ h1
      · exact absurd ⟨hpow, hl⟩ h2
  · intro hceq hmeq
    rw [hbody]
    split_ifs with h1 h2 h3
    · exact absurd h1.2 (by rw [hceq]; exact lt_irrefl _)
    · exact absurd h2.2 (by rw [hmeq]; exact lt_irrefl _)
    · rfl
    · exact absurd ⟨hceq, hmeq⟩ h3
  · intro hng hne
    rw [hbody]
    split_ifs with h1 h2
    · exact absurd ⟨h1.1, Or.inl h1.2⟩ hng
    · exact absurd ⟨h2.1, Or.inr h2.2⟩ hng
    · rfl

/-- Witness for C2: on a powered-off VM with 1 CPU and 4096 MB, `add`
with cpuDelta 2 submits `numCPUs = 3`, `memoryMB = 4096`; the same VM
powered on with `remove` cpuDelta 1 submits nothing (no-change branch). -/
theorem modifyCompute_correct_witness :
    modifyCompute ⟨1, 4096, false⟩ .add (some 2) none = .submit 3 4096
    ∧ modifyCompute ⟨1, 4096, true⟩ .remove (some 1) none = .noChange := by
  constructor
  · have h := (modifyCompute_correct ⟨1, 4096, false⟩ .add (some 2) none
      (by simp) 3 4096 (by norm_num [cpuNewOf]) (by norm_num [memNewOf])).2.2
      (by norm_num) (by norm_num)
    rw [h]
    norm_num [pyInt]
  · exact (modifyCompute_correct ⟨1, 4096, true⟩ .remove (some 1) none
      (by simp) 1 4096 (by norm_num [cpuNewOf]) (by norm_num [memNewOf])).2.1
      rfl rfl

/-- Counterexample to C3 as stated: the source computes the new size in
whole GiB with Python 2 floor division (`capacityInKB / 1024 / 1024 +
abs(size)`, line 3466), so for a thin disk of 63438848 KB (60.5 GiB) and
delta 10 the submitted capacity is 73400320 KB (70 GiB), not
`current + delta` = 73924608 KB. -/
theorem addVmStorage_capacity_counterexample :
    addVmStorage [⟨"Hard disk 1", 63438848, true, 5⟩] 10 none false
      = .submit 5 73400320
    ∧ (73400320 : Nat) ≠ 63438848 + 10 * 1024 * 1024 := by
  exact ⟨by decide, by decide⟩

/-- Claim C3 amended: a zero or negative delta is rejected with nothing
submitted; growing a non-thin disk without the thick override is
rejected; otherwise exactly one reconfiguration is submitted whose new
capacity is the current capacity rounded down to whole GiB plus the
delta (in GiB) — equal to current + delta whenever the current capacity
is a whole number of GiB, e.g. 60 GiB + 10 gives 70 GiB; the target disk
is the first one labelled `Hard disk <i>` for the 1-based index `i`, and
defaults to the last-listed (highest-indexed) disk when unspecified. -/
theorem addVmStorage_correct (disks : List VirtualDisk) (size : Int)
    (diskId : Option Nat) (thick : Bool) :
    addVmStorage disks 0 diskId thick = .noChange
    ∧ (size < 0 → addVmStorage disks size diskId thick = .rejectedShrink)
    ∧ (∀ d, 0 < size → getVmDiskObject disks diskId = some d →
        d.thinProvisioned = false → thick = false →
        addVmStorage disks size diskId thick = .rejectedThick)
    ∧ (∀ d, 0 < size → getVmDiskObject disks diskId = some d →
        (d.thinProvisioned = true ∨ thick = true) →
        addVmStorage disks size diskId thick =
          .submit d.key ((d.capacityInKB / 1024 / 1024 + size.natAbs) * 1024 * 1024)
        ∧ (1024 * 1024 ∣ d.capacityInKB →
          (d.capacityInKB / 1024 / 1024 + size.natAbs) * 1024 * 1024 =
            d.capacityInKB + size.natAbs * 1024 * 1024))
    ∧ (∀ i, getVmDiskObject disks (some i) =
        disks.find? fun d => d.label == "Hard disk " ++ toString i)
    ∧ (disks ≠ [] →
        disks.map VirtualDisk.label =
          (List.range disks.length).map (fun k => "Hard disk " ++ toString (k + 1)) →
        (getVmDiskObject disks none).map VirtualDisk.label =
          some ("Hard disk " ++ toString disks.length)) := by
  refine ⟨rfl, ?_, ?_, ?_, fun i => rfl, ?_⟩
  · intro hneg
    have h0 : ¬((size : Int) = 0) := by omega
    simp only [addVmStorage, if_neg h0, if_pos hneg]
  · intro d hpos hfind hthin hthick
    have h0 : ¬((size : Int) = 0) := by omega
    have h1 : ¬(size < 0) := by omega
    simp only [addVmStorage, if_neg h0, if_neg h1, hfind]
    rw [if_pos ⟨hthin, hthick⟩]
  · intro d hpos hfind hover
    have h0 : ¬((size : Int) = 0) := by omega
    have h1 : ¬(size < 0) := by omega
    constructor
    · simp only [addVmStorage, if_neg h0, if_neg h1, hfind]
      rw [if_neg]
      rcases hover with h | h
      · exact fun hc => by rw [h] at hc; cases hc.1
      · exact fun hc => by rw [h] at hc; cases hc.2
    · intro hdvd
      obtain ⟨m, hm⟩ := hdvd
      rw [hm]
      have hdiv : 1024 * 1024 * m / 1024 / 1024 = m := by omega
      rw [hdiv]
      ring
  · intro hnil hlab
    obtain ⟨m, hm⟩ : ∃ m, disks.length = m + 1 := by
      cases disks with
      | nil => exact absurd rfl hnil
      | cons x xs => exact ⟨xs.length, by simp⟩
    have hlast : (disks.map VirtualDisk.label).getLast? =
        some ("Hard disk " ++ toString disks.length) := by
      rw [hlab, hm, List.range_succ, List.map_append]
      simp
    rw [List.getLast?_map] at hlast
    simpa [getVmDiskObject] using hlast

/-- Witness for C3 (amended): a thin 60 GiB disk grown by 10 GB yields
one submission at 70 GiB = current + delta; a negative delta is
rejected. -/
theorem addVmStorage_correct_witness :
    addVmStorage [⟨"Hard disk 1", 62914560, true, 5⟩] 10 none false
      = .submit 5 (62914560 + 10 * 1024 * 1024)
    ∧ addVmStorage [⟨"Hard disk 1", 62914560, true, 5⟩] (-5) none false
      = .rejectedShrink := by
  constructor
  · have h := (addVmStorage_correct [⟨"Hard disk 1", 62914560, true, 5⟩] 10 none false).2.2.2.1
      ⟨"Hard disk 1", 62914560, true, 5⟩ (by norm_num) (by decide) (Or.inl rfl)
    rw [h.1, h.2 (by decide)]
    norm_num
  · exact (addVmStorage_correct [⟨"Hard disk 1", 62914560, true, 5⟩] (-5) none false).2.1
      (by norm_num)

/-- Claim C4: attaching a tag whose category has SINGLE cardinality to
an object that already holds a *different* tag of the same category
issues exactly two association operations — detach of the old tag, then
attach of the new one, in that order; if the attached tag of that
category is the same tag (same name), only the attach is issued. -/
theorem addVmTag_highlander_correct (newTag : InvTag)
    (hsingle : lowerS newTag.cardinality = "single") :
    (∀ attached t0, t0 ∈ attached →
      t0.categoryName = newTag.categoryName → t0.cardinality = newTag.cardinality →
      t0.name ≠ newTag.name →
      (∀ t ∈ attached, attachConflict newTag t = true → t = t0) →
      attachOps attached newTag = [TagOp.detach t0.name, TagOp.attach newTag.name])
    ∧ (∀ attached,
      (∀ t ∈ attached, t.categoryName = newTag.categoryName →
        t.cardinality = newTag.cardinality → t.name = newTag.name) →
      attachOps attached newTag = [TagOp.attach newTag.name]) := by
  have hcond : (lowerS newTag.cardinality == "single") = true := beq_iff_eq.mpr hsingle
  constructor
  · intro attached t0 ht0 hcat hcard hname huniq
    have hconf : attachConflict newTag t0 = true := by
      simp [attachConflict, hcat, hcard, bne_iff_ne, hname]
    have hfind : attached.find? (attachConflict newTag) = some t0 :=
      find?_eq_of_unique ht0 hconf huniq
    simp [attachOps, hcond, hfind]
  · intro attached hsame
    have hfind : attached.find? (attachConflict newTag) = none := by
      apply List.find?_eq_none.mpr
      intro t ht hc
      have h1 : (t.categoryName = newTag.categoryName ∧
          t.cardinality = newTag.cardinality) ∧ ¬(t.name = newTag.name) := by
        simpa [attachConflict, bne_iff_ne] using hc
      exact h1.2 (hsame t ht h1.1.1 h1.1.2)
    simp [attachOps, hcond, hfind]

/-- Witness for C4: "policy1" of SINGLE category "Backup" attached;
attaching "policy2" of the same category detaches policy1 then attaches
policy2; re-attaching "policy1" issues only the attach. -/
theorem addVmTag_highlander_correct_witness :
    attachOps [⟨"policy1", "Backup", "SINGLE"⟩] ⟨"policy2", "Backup", "SINGLE"⟩
      = [TagOp.detach "policy1", TagOp.attach "policy2"]
    ∧ attachOps [⟨"policy1", "Backup", "SINGLE"⟩] ⟨"policy1", "Backup", "SINGLE"⟩
      = [TagOp.attach "policy1"] := by
  constructor
  · exact (addVmTag_highlander_correct ⟨"policy2", "Backup", "SINGLE"⟩ (by decide)).1
      [⟨"policy1", "Backup", "SINGLE"⟩] ⟨"policy1", "Backup", "SINGLE"⟩
      (by decide) rfl rfl (by decide) (by decide)
  · exact (addVmTag_highlander_correct ⟨"policy1", "Backup", "SINGLE"⟩ (by decide)).2
      [⟨"policy1", "Backup", "SINGLE"⟩] (by decide)

theorem pollFrom_first_terminal (st : Nat → TaskState) :
    ∀ (k i fuel : Nat), k < fuel →
      (∀ j, j < k → isTerminalState (st (i + j)) = false) →
      isTerminalState (st (i + k)) = true →
      pollFrom st i fuel = (st (i + k), i + k) := by
  intro k
  induction k with
  | zero =>
    intro i fuel hk hall hterm
    match fuel, hk with
    | f + 1, _ =>
      simp only [Nat.add_zero] at hterm
      simp [pollFrom, hterm]
  | succ k ih =>
    intro i fuel hk hall hterm
    cases fuel with
    | zero => omega
    | succ f =>
      have hnt : isTerminalState (st i) = false := by
        have := hall 0 (by omega)
        simpa using this
      have hrec : pollFrom st i (f + 1) = pollFrom st (i + 1) f := by
        simp [pollFrom, hnt]
      rw [hrec]
      have hall' : ∀ j, j < k → isTerminalState (st (i + 1 + j)) = false := by
        intro j hj
        have := hall (j + 1) (by omega)
        rwa [show i + (j + 1) = i + 1 + j by omega] at this
      have hterm' : isTerminalState (st (i + 1 + k)) = true := by
        rwa [show i + (k + 1) = i + 1 + k by omega] at hterm
      have hres := ih (i + 1) f (by omega) hall' hterm'
      rw [hres, show i + (k + 1) = i + 1 + k by omega]

theorem pollFrom_timeout (st : Nat → TaskState) :
    ∀ (fuel i : Nat), (∀ j, j ≤ fuel → isTerminalState (st (i + j)) = false) →
      pollFrom st i fuel = (st (i + fuel), i + fuel) := by
  intro fuel
  induction fuel with
  | zero =>
    intro i _
    simp [pollFrom]
  | succ f ih =>
    intro i hall
    have hnt : isTerminalState (st i) = false := by
      have := hall 0 (by omega)
      simpa using this
    have hrec : pollFrom st i (f + 1) = pollFrom st (i + 1) f := by
      simp [pollFrom, hnt]
    rw [hrec]
    have hall' : ∀ j, j ≤ f → isTerminalState (st (i + 1 + j)) = false := by
      intro j hj
      have := hall (j + 1) (by omega)
      rwa [show i + (j + 1) = i + 1 + j by omega] at this
    have hres := ih (i + 1) hall'
    rw [hres, show i + (f + 1) = i + 1 + f by omega]

/-- Counterexample to C5 as stated: the loop polls *first* and sleeps
afterwards (lines 2362-2366), so a task whose state is `success` from
the 3rd poll on (observation index 2) returns `Success` after 2 sleeps —
2 seconds elapsed, not at least 3. -/
theorem waitOnTask_third_poll_counterexample :
    waitOnTask none (fun i => if 2 ≤ i then TaskState.success else TaskState.running) 5
      = (TaskState.success, 2)
    ∧ ¬(3 ≤ (waitOnTask none
        (fun i => if 2 ≤ i then TaskState.success else TaskState.running) 5).2) := by
  exact ⟨by decide, by decide⟩

/-- Claim C5 amended: the supervisor polls once per second and exits the
loop immediately on Success or Error: if the first terminal state is
observed by the poll issued `k` seconds after entry (the `(k+1)`-st
poll), with `k` inside the budget, it returns that state at exactly `k`
seconds elapsed — so success on the 3rd poll returns after 2 seconds
(at least 2, less than 3), not at least 3; a handle that never reaches a
terminal state returns the last (non-terminal) re-read state only after
the full budget `w` of sleeps — 5 seconds for a 5-second budget, not
earlier. -/
theorem waitOnTask_polling_correct (st : Nat → TaskState) (w k : Nat) :
    (k < w → (∀ j, j < k → isTerminalState (st j) = false) →
      isTerminalState (st k) = true → waitOnTask none st w = (st k, k))
    ∧ ((∀ j, j ≤ w → isTerminalState (st j) = false) →
      waitOnTask none st w = (st w, w) ∧ isTerminalState (st w) = false) := by
  constructor
  · intro hk hall hterm
    have h := pollFrom_first_terminal st k 0 w hk (by simpa using hall) (by simpa using hterm)
    simpa [waitOnTask, effectiveWait] using h
  · intro hall
    have h := pollFrom_timeout st w 0 (by simpa using hall)
    exact ⟨by simpa [waitOnTask, effectiveWait] using h, hall w le_rfl⟩

/-- Witness for C5 (amended): success first visible on the 3rd poll with
budget 5 returns `(success, 2)`; a never-terminating handle with budget
5 returns `(running, 5)`. -/
theorem waitOnTask_polling_correct_witness :
    waitOnTask none (fun i => if 2 ≤ i then TaskState.success else TaskState.running) 5
      = (TaskState.success, 2)
    ∧ waitOnTask none (fun _ => TaskState.running) 5 = (TaskState.running, 5) := by
  constructor
  · have h := (waitOnTask_polling_correct
      (fun i => if 2 ≤ i then TaskState.success else TaskState.running) 5 2).1
      (by omega)
      (by
        intro j hj
        have h2 : ¬(2 ≤ j) := by omega
        simp [h2, isTerminalState])
      (by simp [isTerminalState])
    simpa using h
  · have h := (waitOnTask_polling_correct (fun _ => TaskState.running) 5 0).2
      (fun j _ => rfl)
    exact h.1

/-- Claim C9: the polling wait budget is the caller-provided value when
one is supplied and otherwise the Python default of 42 seconds
(line 2348); the clone path passes its own 1200-second budget
(lines 3771-3773), which is effective because the clone sub-parser
defines no `wait` attribute (`argsWait = none`).  For a task that never
reaches a terminal state, the loop therefore runs for exactly that many
seconds. -/
theorem waitOnTask_budget_correct :
    effectiveWait none = 42
    ∧ (∀ w, effectiveWait none w = w)
    ∧ cloneVmWait = 1200
    ∧ (∀ st : Nat → TaskState, (∀ i, isTerminalState (st i) = false) →
        (waitOnTask none st).2 = 42
        ∧ (∀ w, (waitOnTask none st w).2 = w)
        ∧ (cloneWaitOnTask none st).2 = 1200) := by
  refine ⟨rfl, fun w => rfl, rfl, ?_⟩
  intro st hnt
  have hto : ∀ w, (waitOnTask none st w).2 = w := by
    intro w
    have h := pollFrom_timeout st w 0 (fun j _ => by simpa using hnt j)
    simp only [waitOnTask, effectiveWait]
    rw [h]
    simp
  exact ⟨hto 42, hto, hto 1200⟩

/-- Witness for C9: a never-terminating task polls for 42 seconds under
the default budget and 1200 seconds on the clone path. -/
theorem waitOnTask_budget_correct_witness :
    (waitOnTask none (fun _ => TaskState.running)).2 = 42
    ∧ (cloneWaitOnTask none (fun _ => TaskState.running)).2 = 1200 := by
  have h := waitOnTask_budget_correct.2.2.2 (fun _ => TaskState.running) (fun _ => rfl)
  exact ⟨h.1, h.2.2⟩

theorem findSnapshotById_eq_find : ∀ (t : SnapTree) (i : Int),
    findSnapshotById t i = (snapChain t).find? fun n => decide (n.nodeId = i)
  | .node j [], i => by
    by_cases h : j = i <;>
      simp [findSnapshotById, snapChain, List.find?, SnapTree.nodeId, h]
  | .node j (c :: cs), i => by
    have ih := findSnapshotById_eq_find c i
    by_cases h : j = i <;>
      simp [findSnapshotById, snapChain, List.find?, SnapTree.nodeId, h, ih]

/-- Claim C6: traversal starts at the root and follows only the first
child of each node, giving the chain `snapChain`; the by-id search
returns the first chain node whose id equals the target (it stops
there), and when the id is absent from the chain it returns nil after
reaching the last node; listing walks the same chain in order.  On the
3-node chain with ids 1,2,3: `findById 2` is the second node,
`findById 9` is nil, and listing reports 3 nodes in order 1,2,3. -/
theorem snapshot_chain_correct (root : SnapTree) (i : Int) :
    findSnapshotById root i = ((snapChain root).find? fun n => decide (n.nodeId = i))
    ∧ ((∀ n ∈ snapChain root, n.nodeId ≠ i) → findSnapshotById root i = none)
    ∧ listVmSnapshot (some root) = some (snapChain root).length
    ∧ listVmSnapshot none = none
    ∧ findSnapshotById (.node 1 [.node 2 [.node 3 []]]) 2 = some (.node 2 [.node 3 []])
    ∧ findSnapshotById (.node 1 [.node 2 [.node 3 []]]) 9 = none
    ∧ listVmSnapshot (some (.node 1 [.node 2 [.node 3 []]])) = some 3
    ∧ (snapChain (.node 1 [.node 2 [.node 3 []]])).map SnapTree.nodeId = [1, 2, 3] := by
  refine ⟨findSnapshotById_eq_find root i, ?_, rfl, rfl, rfl, rfl, rfl, rfl⟩
  intro habs
  rw [findSnapshotById_eq_find root i]
  apply List.find?_eq_none.mpr
  intro n hn
  simpa using habs n hn

/-- Witness for C6: the absent id 9 yields nil on the concrete 3-node
chain. -/
theorem snapshot_chain_correct_witness :
    findSnapshotById (.node 1 [.node 2 [.node 3 []]]) 9 = none :=
  (snapshot_chain_correct (.node 1 [.node 2 [.node 3 []]]) 9).2.1 (by decide)

theorem addVmDiskLoop_no_disk (bus : Int) :
    ∀ (ds : List VmDevice) (ctrl? : Option Int),
      (∀ u f, VmDevice.virtualDisk u f ∉ ds) →
      ((∃ k, VmDevice.scsiController bus k ∈ ds) ∨ ctrl? ≠ none) →
      ∃ k, addVmDiskLoop bus ds none ctrl? = some (none, some k) := by
  intro ds
  induction ds with
  | nil =>
    intro ctrl? _ hor
    rcases hor with ⟨k, hk⟩ | hc
    · cases hk
    · match ctrl?, hc with
      | some k, _ => exact ⟨k, rfl⟩
  | cons d ds ih =>
    intro ctrl? hnd hor
    have hnd' : ∀ u f, VmDevice.virtualDisk u f ∉ ds :=
      fun u f h => hnd u f (List.mem_cons_of_mem _ h)
    match d with
    | .virtualDisk u f => exact absurd (List.mem_cons_self _ _) (hnd u f)
    | .scsiController b k =>
      by_cases hb : b = bus
      · simp only [addVmDiskLoop, if_pos hb]
        exact ih (some k) hnd' (Or.inr (by simp))
      · simp only [addVmDiskLoop, if_neg hb]
        refine ih ctrl? hnd' ?_
        rcases hor with ⟨k', hk'⟩ | hc
        · rcases List.mem_cons.mp hk' with heq | hmem
          · cases heq
            exact absurd rfl hb
          · exact Or.inl ⟨k', hmem⟩
        · exact Or.inr hc
    | .other =>
      simp only [addVmDiskLoop]
      refine ih ctrl? hnd' ?_
      rcases hor with ⟨k', hk'⟩ | hc
      · rcases List.mem_cons.mp hk' with heq | hmem
        · cases heq
        · exact Or.inl ⟨k', hmem⟩
      · exact Or.inr hc

/-- Claim C10: for a VM whose hardware device list holds a SCSI
controller on the requested bus but no virtual disk device, `_addVmDisk`
reaches line 3363 with `_unitNumber` never assigned, raising an uncaught
`UnboundLocalError` instead of the nil 'skip, nothing submitted' result
of the other precondition failures, and without submitting anything. -/
theorem addVmDisk_unbound_unit_correct (devices : List VmDevice) (bus k : Int)
    (hnodisk : ∀ u f, VmDevice.virtualDisk u f ∉ devices)
    (hctrl : VmDevice.scsiController bus k ∈ devices) :
    addVmDisk devices bus = .unboundLocalError
    ∧ addVmDisk devices bus ≠ .noController
    ∧ addVmDisk devices bus ≠ .busSaturated
    ∧ ∀ u c, addVmDisk devices bus ≠ .submitted u c := by
  obtain ⟨k', hloop⟩ := addVmDiskLoop_no_disk bus devices none hnodisk (Or.inl ⟨k, hctrl⟩)
  have hres : addVmDisk devices bus = .unboundLocalError := by
    simp [addVmDisk, hloop]
  refine ⟨hres, ?_, ?_, ?_⟩
  · rw [hres]
    intro h
    cases h
  · rw [hres]
    intro h
    cases h
  · intro u c
    rw [hres]
    intro h
    cases h

/-- Witness for C10: one SCSI controller on bus 0 and no disks ends in
the uncaught unbound-variable error. -/
theorem addVmDisk_unbound_unit_correct_witness :
    addVmDisk [VmDevice.scsiController 0 1000] 0 = .unboundLocalError :=
  (addVmDisk_unbound_unit_correct [VmDevice.scsiController 0 1000] 0 1000
    (by intro u f h; simp at h) (by simp)).1

theorem matchKeyCount_cons (tokens : List String) (hint : Option String) (k : String)
    (t : InvTag) (ts : List InvTag) :
    matchKeyCount tokens hint k (t :: ts) =
      (if matchesTag tokens hint t && (tagKey hint t == k) then 1 else 0) +
        matchKeyCount tokens hint k ts := by
  simp only [matchKeyCount, List.filter_cons]
  split_ifs <;> simp [Nat.add_comm]

theorem assoc_value_unique {β : Type _} :
    ∀ {l : List (String × β)}, (l.map Prod.fst).Nodup →
      ∀ {k : String} {v1 v2 : β}, (k, v1) ∈ l → (k, v2) ∈ l → v1 = v2 := by
  intro l
  induction l with
  | nil =>
    intro _ k v1 v2 h
    cases h
  | cons kv l ih =>
    intro hnd k v1 v2 h1 h2
    rw [List.map_cons] at hnd
    have hnd1 : kv.1 ∉ l.map Prod.fst := (List.nodup_cons.mp hnd).1
    have hnd2 : (l.map Prod.fst).Nodup := (List.nodup_cons.mp hnd).2
    rcases List.mem_cons.mp h1 with e1 | m1 <;> rcases List.mem_cons.mp h2 with e2 | m2
    · rw [← e1] at e2
      exact (congrArg Prod.snd e2).symm
    · exfalso
      apply hnd1
      rw [← e1]
      exact List.mem_map.mpr ⟨(k, v2), m2, rfl⟩
    · exfalso
      apply hnd1
      rw [← e2]
      exact List.mem_map.mpr ⟨(k, v1), m1, rfl⟩
    · exact ih hnd2 m1 m2

theorem resolveAddTags_cons_not_match {tokens : List String} {hint : Option String}
    {t : InvTag} (ts : List InvTag) (acc : List (String × InvTag))
    (h : matchesTag tokens hint t = false) :
    resolveAddTags tokens hint (t :: ts) acc = resolveAddTags tokens hint ts acc := by
  simp only [resolveAddTags]
  rw [if_neg (by simp [h])]

theorem resolveAddTags_cons_dup {tokens : List String} {hint : Option String}
    {t : InvTag} (ts : List InvTag) {acc : List (String × InvTag)}
    (h : matchesTag tokens hint t = true)
    (hc : (acc.map Prod.fst).contains (tagKey hint t) = true) :
    resolveAddTags tokens hint (t :: ts) acc = none := by
  simp only [resolveAddTags]
  rw [if_pos h, if_pos hc]

theorem resolveAddTags_cons_new {tokens : List String} {hint : Option String}
    {t : InvTag} (ts : List InvTag) {acc : List (String × InvTag)}
    (h : matchesTag tokens hint t = true)
    (hc : (acc.map Prod.fst).contains (tagKey hint t) = false) :
    resolveAddTags tokens hint (t :: ts) acc =
      resolveAddTags tokens hint ts (acc ++ [(tagKey hint t, t)]) := by
  simp only [resolveAddTags]
  rw [if_pos h, if_neg (by rw [hc]; exact Bool.false_ne_true)]

theorem resolveAddTags_ambiguous_none (tokens : List String) (hint : Option String)
    (k : String) :
    ∀ (ts : List InvTag) (acc : List (String × InvTag)),
      ((1 ≤ matchKeyCount tokens hint k ts ∧ k ∈ acc.map Prod.fst) ∨
        2 ≤ matchKeyCount tokens hint k ts) →
      resolveAddTags tokens hint ts acc = none := by
  intro ts
  induction ts with
  | nil =>
    intro acc hor
    rcases hor with ⟨h1, _⟩ | h2
    · simp [matchKeyCount] at h1
    · simp [matchKeyCount] at h2
  | cons t ts ih =>
    intro acc hor
    rw [matchKeyCount_cons] at hor
    by_cases hm : matchesTag tokens hint t = true
    · by_cases hk : tagKey hint t = k
      · have hcond : (matchesTag tokens hint t && (tagKey hint t == k)) = true := by
          simp [hm, hk]
        rw [if_pos hcond] at hor
        by_cases hcont : k ∈ acc.map Prod.fst
        · have hcb : ((acc.map Prod.fst).contains (tagKey hint t)) = true := by
            rw [hk]
            simpa using hcont
          exact resolveAddTags_cons_dup ts hm hcb
        · have hcb : ((acc.map Prod.fst).contains (tagKey hint t)) = false := by
            rw [hk]
            simpa using hcont
          rw [resolveAddTags_cons_new ts hm hcb]
          apply ih
          left
          constructor
          · rcases hor with ⟨_, hca⟩ | h2
            · exact absurd hca hcont
            · omega
          · simp [hk]
      · have hcond : (matchesTag tokens hint t && (tagKey hint t == k)) = false := by
          simp [hm, hk]
        rw [if_neg (by simp [hcond]), Nat.zero_add] at hor
        by_cases hcont : ((acc.map Prod.fst).contains (tagKey hint t)) = true
        · exact resolveAddTags_cons_dup ts hm hcont
        · have hcb : ((acc.map Prod.fst).contains (tagKey hint t)) = false := by
            simpa using hcont
          rw [resolveAddTags_cons_new ts hm hcb]
          apply ih
          rcases hor with ⟨h1, hca⟩ | h2
          · exact Or.inl ⟨h1, by simp [hca]⟩
          · exact Or.inr h2
    · have hmf : matchesTag tokens hint t = false := Bool.eq_false_iff.mpr hm
      have hcond : (matchesTag tokens hint t && (tagKey hint t == k)) = false := by
        simp [hmf]
      rw [if_neg (by simp [hcond]), Nat.zero_add] at hor
      rw [resolveAddTags_cons_not_match ts acc hmf]
      exact ih acc hor

theorem setKeyNone_keys (acc : List (String × Option InvTag)) (k : String) :
    (setKeyNone acc k).map Prod.fst = acc.map Prod.fst := by
  induction acc with
  | nil => rfl
  | cons kv acc ih =>
    simp only [setKeyNone, List.map_cons] at ih ⊢
    by_cases h : kv.1 == k
    · rw [if_pos h]
      simpa using ih
    · rw [if_neg h]
      simpa using ih

theorem mem_setKeyNone_of_ne {acc : List (String × Option InvTag)}
    {kv : String × Option InvTag} (h : kv ∈ acc) {k : String} (hne : kv.1 ≠ k) :
    kv ∈ setKeyNone acc k := by
  refine List.mem_map.mpr ⟨kv, h, ?_⟩
  rw [if_neg (by simpa using hne)]

theorem none_mem_setKeyNone {acc : List (String × Option InvTag)} {k : String}
    (h : k ∈ acc.map Prod.fst) : (k, (none : Option InvTag)) ∈ setKeyNone acc k := by
  obtain ⟨kv, hkv, hfst⟩ := List.mem_map.mp h
  refine List.mem_map.mpr ⟨kv, hkv, ?_⟩
  rw [if_pos (by simpa using hfst), hfst]

theorem resolveDetachTags_cons_not_match {tokens : List String} {hint : Option String}
    {t : InvTag} (ts : List InvTag) (acc : List (String × Option InvTag))
    (h : matchesTag tokens hint t = false) :
    resolveDetachTags tokens hint (t :: ts) acc = resolveDetachTags tokens hint ts acc := by
  simp only [resolveDetachTags]
  rw [if_neg (by simp [h])]

theorem resolveDetachTags_cons_dup {tokens : List String} {hint : Option String}
    {t : InvTag} (ts : List InvTag) {acc : List (String × Option InvTag)}
    (h : matchesTag tokens hint t = true)
    (hc : (acc.map Prod.fst).contains (tagKey hint t) = true) :
    resolveDetachTags tokens hint (t :: ts) acc =
      resolveDetachTags tokens hint ts (setKeyNone acc (tagKey hint t)) := by
  simp only [resolveDetachTags]
  rw [if_pos h, if_pos hc]

theorem resolveDetachTags_cons_new {tokens : List String} {hint : Option String}
    {t : InvTag} (ts : List InvTag) {acc : List (String × Option InvTag)}
    (h : matchesTag tokens hint t = true)
    (hc : (acc.map Prod.fst).contains (tagKey hint t) = false) :
    resolveDetachTags tokens hint (t :: ts) acc =
      resolveDetachTags tokens hint ts (acc ++ [(tagKey hint t, some t)]) := by
  simp only [resolveDetachTags]
  rw [if_pos h, if_neg (by rw [hc]; exact Bool.false_ne_true)]

theorem resolveDetachTags_ambiguous_none (tokens : List String) (hint : Option String)
    (k : String) :
    ∀ (ts : List InvTag) (acc : List (String × Option InvTag)),
      (acc.map Prod.fst).Nodup →
      ((k, (none : Option InvTag)) ∈ acc ∨
        (k ∈ acc.map Prod.fst ∧ 1 ≤ matchKeyCount tokens hint k ts) ∨
        (k ∉ acc.map Prod.fst ∧ 2 ≤ matchKeyCount tokens hint k ts)) →
      ∀ t, (k, some t) ∉ resolveDetachTags tokens hint ts acc := by
  intro ts
  induction ts with
  | nil =>
    intro acc hnd hor t hmem
    simp only [resolveDetachTags] at hmem
    rcases hor with ha | ⟨_, hb⟩ | ⟨_, hc⟩
    · exact Option.noConfusion (assoc_value_unique hnd hmem ha)
    · simp [matchKeyCount] at hb
    · simp [matchKeyCount] at hc
  | cons t' ts ih =>
    intro acc hnd hor t
    rw [matchKeyCount_cons] at hor
    by_cases hm : matchesTag tokens hint t' = true
    · by_cases hcont : ((acc.map Prod.fst).contains (tagKey hint t')) = true
      · rw [resolveDetachTags_cons_dup ts hm hcont]
        have hnd' : ((setKeyNone acc (tagKey hint t')).map Prod.fst).Nodup := by
          rwa [setKeyNone_keys]
        by_cases hk : tagKey hint t' = k
        · refine ih (setKeyNone acc (tagKey hint t')) hnd' (Or.inl ?_) t
          rw [hk] at hcont ⊢
          exact none_mem_setKeyNone (by simpa using hcont)
        · refine ih (setKeyNone acc (tagKey hint t')) hnd' ?_ t
          have hkeys : (setKeyNone acc (tagKey hint t')).map Prod.fst = acc.map Prod.fst :=
            setKeyNone_keys acc (tagKey hint t')
          have hcnt : matchKeyCount tokens hint k (t' :: ts) = matchKeyCount tokens hint k ts := by
            rw [matchKeyCount_cons, if_neg (by simp [hk]), Nat.zero_add]
          rcases hor with ha | ⟨hb1, hb2⟩ | ⟨hc1, hc2⟩
          · exact Or.inl (mem_setKeyNone_of_ne ha fun h => hk h.symm)
          · refine Or.inr (Or.inl ⟨by rwa [hkeys], ?_⟩)
            rw [if_neg (by simp [hm, hk])] at hb2
            omega
          · refine Or.inr (Or.inr ⟨by rwa [hkeys], ?_⟩)
            rw [if_neg (by simp [hm, hk])] at hc2
            omega
      · have hcb : ((acc.map Prod.fst).contains (tagKey hint t')) = false := by
          simpa using hcont
        rw [resolveDetachTags_cons_new ts hm hcb]
        have hknotin : tagKey hint t' ∉ acc.map Prod.fst := by
          intro hin
          rw [(by simpa using hin : ((acc.map Prod.fst).contains (tagKey hint t')) = true)]
            at hcb
          cases hcb
        have hnd' : ((acc ++ [(tagKey hint t', some t')]).map Prod.fst).Nodup := by
          rw [List.map_append]
          refine List.nodup_append.mpr ⟨hnd, List.nodup_singleton _, ?_⟩
          intro a ha hb
          simp only [List.map_cons, List.map_nil, List.mem_singleton] at hb
          rw [hb] at ha
          exact hknotin ha
        by_cases hk : tagKey hint t' = k
        · rcases hor with ha | ⟨hb1, _⟩ | ⟨_, hc2⟩
          · exact absurd (List.mem_map.mpr ⟨(k, none), ha, hk ▸ rfl⟩) (hk ▸ hknotin)
          · exact absurd hb1 (hk ▸ hknotin)
          · refine ih (acc ++ [(tagKey hint t', some t')]) hnd' (Or.inr (Or.inl ⟨?_, ?_⟩)) t
            · rw [List.map_append]
              simp [hk]
            · rw [if_pos (by simp [hm, hk])] at hc2
              omega
        · refine ih (acc ++ [(tagKey hint t', some t')]) hnd' ?_ t
          have hkeys : k ∈ (acc ++ [(tagKey hint t', some t')]).map Prod.fst ↔
              k ∈ acc.map Prod.fst := by
            rw [List.map_append]
            simp [Ne.symm hk]
          rcases hor with ha | ⟨hb1, hb2⟩ | ⟨hc1, hc2⟩
          · exact Or.inl (List.mem_append_left _ ha)
          · refine Or.inr (Or.inl ⟨hkeys.mpr hb1, ?_⟩)
            rw [if_neg (by simp [hm, hk])] at hb2
            omega
          · refine Or.inr (Or.inr ⟨fun hin => hc1 (hkeys.mp hin), ?_⟩)
            rw [if_neg (by simp [hm, hk])] at hc2
            omega
    · have hmf : matchesTag tokens hint t' = false := Bool.eq_false_iff.mpr hm
      rw [resolveDetachTags_cons_not_match ts acc hmf]
      refine ih acc hnd ?_ t
      rw [if_neg (by simp [hmf]), Nat.zero_add] at hor
      exact hor

theorem resolveDetachTags_unique_some (tokens : List String) (hint : Option String)
    (k : String) (t : InvTag) :
    ∀ (ts : List InvTag) (acc : List (String × Option InvTag)),
      (((k, some t) ∈ acc ∧ matchKeyCount tokens hint k ts = 0) ∨
        (k ∉ acc.map Prod.fst ∧
          (ts.filter fun t' => matchesTag tokens hint t' && (tagKey hint t' == k)) = [t])) →
      (k, some t) ∈ resolveDetachTags tokens hint ts acc := by
  intro ts
  induction ts with
  | nil =>
    intro acc hor
    simp only [resolveDetachTags]
    rcases hor with ⟨ha, _⟩ | ⟨_, hb⟩
    · exact ha
    · simp at hb
  | cons t' ts ih =>
    intro acc hor
    by_cases hm : matchesTag tokens hint t' = true
    · by_cases hcont : ((acc.map Prod.fst).contains (tagKey hint t')) = true
      · rw [resolveDetachTags_cons_dup ts hm hcont]
        by_cases hk : tagKey hint t' = k
        · exfalso
          rcases hor with ⟨_, hcnt⟩ | ⟨hnotin, _⟩
          · rw [matchKeyCount_cons, if_pos (by simp [hm, hk])] at hcnt
            omega
          · apply hnotin
            rw [← hk]
            simpa using hcont
        · apply ih
          rcases hor with ⟨ha, hcnt⟩ | ⟨hnotin, hfilt⟩
          · refine Or.inl ⟨mem_setKeyNone_of_ne ha (fun h => hk h.symm), ?_⟩
            rw [matchKeyCount_cons, if_neg (by simp [hm, hk]), Nat.zero_add] at hcnt
            exact hcnt
          · refine Or.inr ⟨?_, ?_⟩
            · rw [setKeyNone_keys]
              exact hnotin
            · rw [List.filter_cons, if_neg (by simp [hm, hk])] at hfilt
              exact hfilt
      · have hcb : ((acc.map Prod.fst).contains (tagKey hint t')) = false := by
          simpa using hcont
        rw [resolveDetachTags_cons_new ts hm hcb]
        by_cases hk : tagKey hint t' = k
        · rcases hor with ⟨ha, _⟩ | ⟨hnotin, hfilt⟩
          · exfalso
            have hin : k ∈ acc.map Prod.fst := List.mem_map.mpr ⟨(k, some t), ha, rfl⟩
            rw [← hk] at hin
            rw [(by simpa using hin :
              ((acc.map Prod.fst).contains (tagKey hint t')) = true)] at hcb
            cases hcb
          · rw [List.filter_cons, if_pos (by simp [hm, hk])] at hfilt
            injection hfilt with ht' hnil
            apply ih
            refine Or.inl ⟨?_, ?_⟩
            · rw [← hk, ← ht']
              exact List.mem_append_right _ (by simp)
            · simp [matchKeyCount, hnil]
        · apply ih
          rcases hor with ⟨ha, hcnt⟩ | ⟨hnotin, hfilt⟩
          · refine Or.inl ⟨List.mem_append_left _ ha, ?_⟩
            rw [matchKeyCount_cons, if_neg (by simp [hm, hk]), Nat.zero_add] at hcnt
            exact hcnt
          · refine Or.inr ⟨?_, ?_⟩
            · rw [List.map_append]
              intro hin
              rcases List.mem_append.mp hin with h | h
              · exact hnotin h
              · simp only [List.map_cons, List.map_nil, List.mem_singleton] at h
                exact hk h.symm
            · rw [List.filter_cons, if_neg (by simp [hm, hk])] at hfilt
              exact hfilt
    · have hmf : matchesTag tokens hint t' = false := Bool.eq_false_iff.mpr hm
      rw [resolveDetachTags_cons_not_match ts acc hmf]
      apply ih
      rcases hor with ⟨ha, hcnt⟩ | ⟨hnotin, hfilt⟩
      · refine Or.inl ⟨ha, ?_⟩
        rw [matchKeyCount_cons, if_neg (by simp [hmf]), Nat.zero_add] at hcnt
        exact hcnt
      · refine Or.inr ⟨hnotin, ?_⟩
        rw [List.filter_cons, if_neg (by simp [hmf])] at hfilt
        exact hfilt

/-- Counterexample to C8 as stated: attaching tokens `["a", "b"]` where
two inventory tags named "a" live in different categories (ambiguous
key) makes `_addVmTag` `return 0` during resolution (line 3530), so
*nothing* is attached — the unambiguous sibling key "b" does not
continue (it is attached when requested alone). -/
theorem tag_ambiguity_counterexample :
    addVmTagTrace
      [⟨"a", "cat1", "MULTIPLE"⟩, ⟨"a", "cat2", "MULTIPLE"⟩, ⟨"b", "cat3", "MULTIPLE"⟩]
      ["a", "b"] none [("vm1", [])] = []
    ∧ ("vm1", TagOp.attach "b") ∉ addVmTagTrace
      [⟨"a", "cat1", "MULTIPLE"⟩, ⟨"a", "cat2", "MULTIPLE"⟩, ⟨"b", "cat3", "MULTIPLE"⟩]
      ["a", "b"] none [("vm1", [])]
    ∧ addVmTagTrace [⟨"b", "cat3", "MULTIPLE"⟩] ["b"] none [("vm1", [])]
      = [("vm1", TagOp.attach "b")] := by
  exact ⟨by decide, by decide, by decide⟩

/-- Claim C8 amended: an ambiguous tag resolution (at least two distinct
matches for the same resolved key) is reported; on *attach* it aborts
the whole batch — no association is issued for any key or object; on
*detach* the ambiguous key is skipped with a warning (no detach is ever
issued from it) while uniquely resolved sibling keys are still detached,
and the per-object batches are processed independently. -/
theorem tag_ambiguity_correct (tokens : List String) (hint : Option String) :
    (∀ allTags vms, resolveAddTags tokens hint allTags [] = none →
      addVmTagTrace allTags tokens hint vms = [])
    ∧ (∀ allTags k, 2 ≤ matchKeyCount tokens hint k allTags →
        resolveAddTags tokens hint allTags [] = none)
    ∧ (∀ attached k, 2 ≤ matchKeyCount tokens hint k attached →
        ∀ t, (k, some t) ∉ resolveDetachTags tokens hint attached [])
    ∧ (∀ attached t,
        (attached.filter fun t' => matchesTag tokens hint t' &&
          (tagKey hint t' == tagKey hint t)) = [t] →
        TagOp.detach t.name ∈ detachOpsFor tokens hint attached)
    ∧ (∀ vms₁ vms₂, removeVmTagTrace tokens hint (vms₁ ++ vms₂) =
        removeVmTagTrace tokens hint vms₁ ++ removeVmTagTrace tokens hint vms₂) := by
  refine ⟨?_, ?_, ?_, ?_, ?_⟩
  · intro allTags vms h
    simp [addVmTagTrace, h]
  · intro allTags k h
    exact resolveAddTags_ambiguous_none tokens hint k allTags [] (Or.inr h)
  · intro attached k h t
    exact resolveDetachTags_ambiguous_none tokens hint k attached [] (by simp)
      (Or.inr (Or.inr ⟨by simp, h⟩)) t
  · intro attached t hfilt
    have hmem := resolveDetachTags_unique_some tokens hint (tagKey hint t) t attached []
      (Or.inr ⟨by simp, hfilt⟩)
    exact List.mem_filterMap.mpr ⟨(tagKey hint t, some t), hmem, rfl⟩
  · intro vms₁ vms₂
    simp [removeVmTagTrace]

/-- Witness for C8 (amended) on concrete ambiguous/unique keys. -/
theorem tag_ambiguity_correct_witness :
    addVmTagTrace [⟨"a", "cat1", "MULTIPLE"⟩, ⟨"a", "cat2", "MULTIPLE"⟩]
      ["a"] none [("vm1", [])] = []
    ∧ ("a", some (⟨"a", "cat1", "M"⟩ : InvTag)) ∉
        resolveDetachTags ["a", "b"] none
          [⟨"a", "cat1", "M"⟩, ⟨"a", "cat2", "M"⟩, ⟨"b", "cat3", "M"⟩] []
    ∧ TagOp.detach "b" ∈ detachOpsFor ["a", "b"] none
        [⟨"a", "cat1", "M"⟩, ⟨"a", "cat2", "M"⟩, ⟨"b", "cat3", "M"⟩] := by
  refine ⟨?_, ?_, ?_⟩
  · exact (tag_ambiguity_correct ["a"] none).1
      [⟨"a", "cat1", "MULTIPLE"⟩, ⟨"a", "cat2", "MULTIPLE"⟩] [("vm1", [])]
      ((tag_ambiguity_correct ["a"] none).2.1
        [⟨"a", "cat1", "MULTIPLE"⟩, ⟨"a", "cat2", "MULTIPLE"⟩] "a" (by decide))
  · exact (tag_ambiguity_correct ["a", "b"] none).2.2.1
      [⟨"a", "cat1", "M"⟩, ⟨"a", "cat2", "M"⟩, ⟨"b", "cat3", "M"⟩] "a" (by decide)
      ⟨"a", "cat1", "M"⟩
  · exact (tag_ambiguity_correct ["a", "b"] none).2.2.2.1
      [⟨"a", "cat1", "M"⟩, ⟨"a", "cat2", "M"⟩, ⟨"b", "cat3", "M"⟩]
      ⟨"b", "cat3", "M"⟩ (by decide)

end VCLI
